import Mathlib

/-!
# pokecache: a time-expiring in-memory cache

A shallow embedding of `internal/pokecache/pokecache.go` and a verification of
its storage, lookup and eviction behaviour.

Modelling conventions

* A `time.Time` is an instant on one integer timeline, counted in nanoseconds.
  `Time.Add` and `Time.Before` are exact on it: the instants a running process
  reads from `time.Now()` are centuries away from the limits of the
  representation.
* A `time.Duration` is an `int64` count of nanoseconds.  The unary minus of
  `-c.interval` is two's-complement negation, written with an explicit
  reduction modulo `2^64`.
* A `[]byte` is either the nil slice or a sequence of bytes.
* A Go `map[string]cacheEntry` is a list of key/entry pairs with pairwise
  distinct keys.  A cache state has an initialised map, as `NewCache` makes it;
  the zero `Cache`, whose map is nil, is not a state of the model.
* Every method body runs between `c.mu.Lock()` and `c.mu.Unlock()`; a method is
  one atomic transition of the cache state, and a method with a pointer
  receiver returns the receiver's new state next to its results.  The clock
  reading `time.Now()` is an argument of the transition.
-/

namespace pokecache

/-! ## Time -/

/-- An instant (`time.Time`), in nanoseconds on one timeline. -/
abbrev Time := Int

/-- The least `int64`. -/
def minInt64 : Int := -9223372036854775808

/-- The greatest `int64`. -/
def maxInt64 : Int := 9223372036854775807

/-- Reduction of an integer to the `int64` it denotes in two's complement. -/
def wrapInt64 (x : Int) : Int :=
  (x + 9223372036854775808) % 18446744073709551616 - 9223372036854775808

/-- A `time.Duration`: an `int64` number of nanoseconds. -/
abbrev Duration := { d : Int // minInt64 ≤ d ∧ d ≤ maxInt64 }

/-- Go's unary minus on a `Duration` (it wraps at the least `int64`). -/
def Duration.neg (d : Duration) : Duration :=
  ⟨wrapInt64 (-d.val), by
    unfold wrapInt64 minInt64 maxInt64
    constructor <;> omega⟩

/-- The instant `t.Add(d)`. -/
def Time.Add (t : Time) (d : Duration) : Time := t + d.val

/-- The test `t.Before(u)`. -/
def Time.Before (t u : Time) : Bool := decide (t < u)

/-! ## Data model -/

/-- A Go `[]byte`: `none` is the nil slice. -/
abbrev Bytes := Option (List UInt8)

/-- The struct `cacheEntry`. -/
structure cacheEntry where
  createdAt : Time
  val : Bytes
deriving DecidableEq, Repr

/-- A Go `map[string]cacheEntry`. -/
structure EntryMap where
  items : List (String × cacheEntry)
  nodup : (items.map Prod.fst).Nodup

namespace EntryMap

/-- The empty map `make(map[string]cacheEntry)`. -/
def make : EntryMap := ⟨[], List.nodup_nil⟩

/-- The lookup `entry, found := m[key]`; `none` stands for `found = false`. -/
def index (m : EntryMap) (key : String) : Option cacheEntry :=
  m.items.lookup key

/-- The builtin `delete(m, key)`. -/
def delete (m : EntryMap) (key : String) : EntryMap :=
  ⟨m.items.filter (fun p => p.1 != key),
    m.nodup.sublist (List.filter_sublist m.items |>.map Prod.fst)⟩

/-- The assignment `m[key] = e`. -/
def assign (m : EntryMap) (key : String) (e : cacheEntry) : EntryMap :=
  ⟨m.items.filter (fun p => p.1 != key) ++ [(key, e)], by
    rw [List.map_append, List.nodup_append]
    refine ⟨m.nodup.sublist (List.filter_sublist m.items |>.map Prod.fst), by simp, ?_⟩
    intro a ha hb
    simp only [List.map_cons, List.map_nil, List.mem_singleton] at hb
    subst hb
    simp only [List.mem_map, List.mem_filter] at ha
    obtain ⟨p, ⟨_, hp⟩, rfl⟩ := ha
    simp at hp⟩

/-- The number of entries stored under `key`. -/
def count (m : EntryMap) (key : String) : Nat :=
  (m.items.filter (fun p => p.1 == key)).length

end EntryMap

/-- The struct `Cache` (its mutex is implicit in the atomicity of the methods). -/
structure Cache where
  entries : EntryMap
  interval : Duration

/-- The constructor `NewCache`; the reaper it starts is the source of the
`sweep` events of a run. -/
def NewCache (interval : Duration) : Cache :=
  { entries := EntryMap.make, interval := interval }

/-- The method `Add`, executed when the clock reads `now`. -/
def Cache.Add (c : Cache) (now : Time) (key : String) (val : Bytes) : Cache :=
  { c with entries := c.entries.assign key { createdAt := now, val := val } }

/-- The method `Get`: the state it leaves and the pair it returns. -/
def Cache.Get (c : Cache) (key : String) : Cache × (Bytes × Bool) :=
  match c.entries.index key with
  | none => (c, (none, false))
  | some entry => (c, (entry.val, true))

/-- The instant `threshold` computed by one iteration of `reapLoop`. -/
def Cache.threshold (c : Cache) (now : Time) : Time :=
  now.Add c.interval.neg

/-- The `range` loop of `reapLoop` over the pairs `visit`, acting on the map
`m`: the key of each visited pair created before `threshold` is deleted.  Go leaves
the order of the visit unspecified; `index_reapRange_perm` shows that the resulting
map does not depend on it. -/
def reapRange (threshold : Time) (visit : List (String × cacheEntry)) (m : EntryMap) :
    EntryMap :=
  visit.foldl (fun m p => if p.2.createdAt.Before threshold then m.delete p.1 else m) m

/-- One iteration of the `for` loop of `reapLoop`, after its `time.Sleep`, with
the clock reading `now`: the `range` loop visits every pair of the map once. -/
def Cache.reapPass (c : Cache) (now : Time) : Cache :=
  let threshold := c.threshold now
  { c with entries := reapRange threshold c.entries.items c.entries }

/-! ## Runs -/

/-- The operations performed on a cache. -/
inductive Op where
  | add (key : String) (val : Bytes)
  | get (key : String)
  | sweep
deriving DecidableEq, Repr

/-- An operation together with the clock reading at which it executes. -/
structure Event where
  time : Time
  op : Op
deriving DecidableEq, Repr

/-- The state after one event. -/
def step (c : Cache) (e : Event) : Cache :=
  match e.op with
  | Op.add key val => c.Add e.time key val
  | Op.get key => (c.Get key).1
  | Op.sweep => c.reapPass e.time

/-- The state after a sequence of events, executed in order. -/
def run (c : Cache) (es : List Event) : Cache :=
  es.foldl step c

/-- Whether an event is an `Add` on `key`. -/
def Event.addsKey (e : Event) (key : String) : Bool :=
  match e.op with
  | Op.add k _ => k == key
  | _ => false

/-! ## Sample data -/

/-- An interval of 100 milliseconds. -/
def interval100ms : Duration := ⟨100000000, by decide⟩

/-- The interval of zero nanoseconds. -/
def intervalZero : Duration := ⟨0, by decide⟩

/-- The least duration, `math.MinInt64` nanoseconds. -/
def intervalMin : Duration := ⟨minInt64, by decide⟩

/-- A cache with interval 100ms holding `"u0"` (created at 0) and `"u2"` (created at 5). -/
def sampleCache : Cache :=
  ((NewCache interval100ms).Add 0 "u0" (some [7])).Add 5 "u2" (some [])

/-! ## Auxiliary facts -/

theorem neg_val_of_ne_min (d : Duration) (h : d.val ≠ minInt64) : d.neg.val = -d.val := by
  have h1 := d.property.1
  have h2 := d.property.2
  unfold minInt64 at h h1
  unfold maxInt64 at h2
  show wrapInt64 (-d.val) = -d.val
  unfold wrapInt64
  omega

theorem neg_val_of_eq_min (d : Duration) (h : d.val = minInt64) : d.neg.val = minInt64 := by
  show wrapInt64 (-d.val) = minInt64
  rw [h]
  decide

theorem lookup_filter_ne (l : List (String × cacheEntry)) (k k' : String) :
    (l.filter (fun p => p.1 != k')).lookup k = if k = k' then none else l.lookup k := by
  induction l with
  | nil => simp
  | cons p l ih =>
    obtain ⟨a, b⟩ := p
    by_cases hak : a = k'
    · subst hak
      by_cases hk : k = a
      · subst hk
        simp [List.filter_cons, ih]
      · have : (k == a) = false := by simpa using hk
        simp [List.filter_cons, ih, List.lookup_cons, this, hk]
    · have hne : (a != k') = true := by simpa using hak
      by_cases hk : k = a
      · subst hk
        simp [List.filter_cons, hne, List.lookup_cons, hak]
      · have : (k == a) = false := by simpa using hk
        simp [List.filter_cons, hne, List.lookup_cons, this, ih]

theorem lookup_append_single (l : List (String × cacheEntry)) (k k' : String) (e : cacheEntry) :
    (l ++ [(k', e)]).lookup k =
      match l.lookup k with
      | some x => some x
      | none => if k = k' then some e else none := by
  induction l with
  | nil =>
    by_cases hk : k = k'
    · subst hk; simp [List.lookup_cons]
    · have : (k == k') = false := by simpa using hk
      simp [List.lookup_cons, this, hk]
  | cons p l ih =>
    obtain ⟨a, b⟩ := p
    by_cases hk : k = a
    · subst hk; simp [List.lookup_cons]
    · have : (k == a) = false := by simpa using hk
      simp only [List.cons_append, List.lookup_cons, this]
      exact ih

theorem EntryMap.index_make (k : String) : EntryMap.make.index k = none := rfl

theorem EntryMap.index_delete (m : EntryMap) (k k' : String) :
    (m.delete k').index k = if k = k' then none else m.index k :=
  lookup_filter_ne m.items k k'

theorem EntryMap.index_assign (m : EntryMap) (k k' : String) (e : cacheEntry) :
    (m.assign k' e).index k = if k = k' then some e else m.index k := by
  show (m.items.filter (fun p => p.1 != k') ++ [(k', e)]).lookup k = _
  rw [lookup_append_single, lookup_filter_ne]
  by_cases hk : k = k'
  · simp [hk]
  · simp only [hk, if_false]
    cases h : m.items.lookup k <;> simp [EntryMap.index, h]

theorem mem_of_lookup_eq_some (l : List (String × cacheEntry)) (k : String) (e : cacheEntry)
    (h : l.lookup k = some e) : (k, e) ∈ l := by
  induction l with
  | nil => simp at h
  | cons p l ih =>
    obtain ⟨a, b⟩ := p
    by_cases hk : k = a
    · subst hk
      simp [List.lookup_cons] at h
      simp [h]
    · have hb : (k == a) = false := by simpa using hk
      simp only [List.lookup_cons, hb] at h
      exact List.mem_cons_of_mem _ (ih h)

theorem lookup_eq_some_of_mem (l : List (String × cacheEntry)) (hl : (l.map Prod.fst).Nodup)
    (k : String) (e : cacheEntry) (h : (k, e) ∈ l) : l.lookup k = some e := by
  induction l with
  | nil => simp at h
  | cons p l ih =>
    obtain ⟨a, b⟩ := p
    rw [List.map_cons, List.nodup_cons] at hl
    rcases List.mem_cons.1 h with hhead | htail
    · injection hhead with h1 h2
      subst h1; subst h2
      simp [List.lookup_cons]
    · have hk : k ≠ a := by
        intro hka
        exact hl.1 (List.mem_map.2 ⟨(k, e), htail, hka⟩)
      have hb : (k == a) = false := by simpa using hk
      simp only [List.lookup_cons, hb]
      exact ih hl.2 htail

theorem EntryMap.index_eq_some_iff (m : EntryMap) (k : String) (e : cacheEntry) :
    m.index k = some e ↔ (k, e) ∈ m.items :=
  ⟨mem_of_lookup_eq_some m.items k e, lookup_eq_some_of_mem m.items m.nodup k e⟩

theorem index_reapRange (th : Time) (visit : List (String × cacheEntry)) (m : EntryMap)
    (k : String) :
    (reapRange th visit m).index k =
      if visit.any (fun p => p.1 == k && p.2.createdAt.Before th) then none
      else m.index k := by
  induction visit generalizing m with
  | nil => simp [reapRange]
  | cons p visit ih =>
    have hstep : reapRange th (p :: visit) m =
        reapRange th visit (if p.2.createdAt.Before th then m.delete p.1 else m) := rfl
    rw [hstep, ih]
    by_cases hrest : visit.any (fun p => p.1 == k && p.2.createdAt.Before th) = true
    · simp [hrest]
    · by_cases hb : p.2.createdAt.Before th = true
      · by_cases hk : k = p.1
        · subst hk
          simp [hb, EntryMap.index_delete]
        · have hk2 : ¬ p.1 = k := fun h => hk h.symm
          simp [hb, EntryMap.index_delete, hk, hk2, hrest]
      · simp [hb, hrest]

theorem index_reapRange_perm (th : Time) (visit visit' : List (String × cacheEntry))
    (hp : visit'.Perm visit) (m : EntryMap) (k : String) :
    (reapRange th visit' m).index k = (reapRange th visit m).index k := by
  rw [index_reapRange, index_reapRange]
  have hany : visit'.any (fun p => p.1 == k && p.2.createdAt.Before th) =
      visit.any (fun p => p.1 == k && p.2.createdAt.Before th) := by
    rw [Bool.eq_iff_iff, List.any_eq_true, List.any_eq_true]
    exact ⟨fun ⟨p, hm, hq⟩ => ⟨p, hp.mem_iff.1 hm, hq⟩, fun ⟨p, hm, hq⟩ => ⟨p, hp.mem_iff.2 hm, hq⟩⟩
  rw [hany]

theorem index_reapPass (c : Cache) (now : Time) (k : String) :
    (c.reapPass now).entries.index k =
      (c.entries.index k).filter (fun e => !e.createdAt.Before (c.threshold now)) := by
  show (reapRange (c.threshold now) c.entries.items c.entries).index k = _
  rw [index_reapRange]
  cases h : c.entries.index k with
  | none => simp [Option.filter]
  | some e =>
    have hmem := (EntryMap.index_eq_some_iff c.entries k e).1 h
    by_cases hb : e.createdAt.Before (c.threshold now) = true
    · have hany : c.entries.items.any
          (fun p => p.1 == k && p.2.createdAt.Before (c.threshold now)) = true := by
        rw [List.any_eq_true]
        exact ⟨(k, e), hmem, by simp [hb]⟩
      simp [hany, Option.filter, hb]
    · have hany : ¬ c.entries.items.any
          (fun p => p.1 == k && p.2.createdAt.Before (c.threshold now)) = true := by
        rw [List.any_eq_true]
        rintro ⟨⟨a, b⟩, hp, hq⟩
        simp only [Bool.and_eq_true, beq_iff_eq] at hq
        obtain ⟨rfl, hq⟩ := hq
        have := (EntryMap.index_eq_some_iff c.entries a b).2 hp
        rw [h] at this
        injection this with this
        subst this
        exact hb hq
      simp [hany, Option.filter, hb]

theorem interval_reapPass (c : Cache) (now : Time) : (c.reapPass now).interval = c.interval := rfl

theorem interval_Add (c : Cache) (now : Time) (k : String) (v : Bytes) :
    (c.Add now k v).interval = c.interval := rfl

theorem index_Add (c : Cache) (now : Time) (k k' : String) (v : Bytes) :
    (c.Add now k' v).entries.index k =
      if k = k' then some { createdAt := now, val := v } else c.entries.index k :=
  EntryMap.index_assign c.entries k k' _

theorem Get_state (c : Cache) (k : String) : (c.Get k).1 = c := by
  unfold Cache.Get
  cases c.entries.index k <;> rfl

theorem Get_result (c : Cache) (k : String) :
    (c.Get k).2 =
      match c.entries.index k with
      | none => (none, false)
      | some entry => (entry.val, true) := by
  unfold Cache.Get
  cases c.entries.index k <;> rfl

theorem isSome_index_iff (m : EntryMap) (k : String) :
    (m.index k).isSome = true ↔ k ∈ m.items.map Prod.fst := by
  constructor
  · intro h
    obtain ⟨e, he⟩ := Option.isSome_iff_exists.1 h
    exact List.mem_map.2 ⟨(k, e), (EntryMap.index_eq_some_iff m k e).1 he, rfl⟩
  · intro h
    obtain ⟨⟨a, b⟩, hp, rfl⟩ := List.mem_map.1 h
    rw [(EntryMap.index_eq_some_iff m a b).2 hp]
    rfl

theorem count_assign (m : EntryMap) (k : String) (e : cacheEntry) :
    (m.assign k e).count k = 1 := by
  show ((m.items.filter (fun p => p.1 != k) ++ [(k, e)]).filter (fun p => p.1 == k)).length = 1
  rw [List.filter_append, List.filter_filter]
  have h0 : m.items.filter (fun p => (p.1 == k) && (p.1 != k)) = [] := by
    rw [List.filter_eq_nil_iff]
    intro p _
    by_cases hp : p.1 = k <;> simp [hp]
  rw [h0]
  simp

theorem index_step_of_not_adds (c : Cache) (e : Event) (k : String)
    (h : e.addsKey k = false) :
    (step c e).entries.index k = c.entries.index k ∨
      (e.op = Op.sweep ∧ (step c e).entries.index k = none) := by
  obtain ⟨t, op⟩ := e
  cases op with
  | add key val =>
    left
    have hk : ¬ k = key := by
      intro hk
      simp [Event.addsKey, hk] at h
    show (c.Add t key val).entries.index k = _
    rw [index_Add, if_neg hk]
  | get key =>
    left
    show ((c.Get key).1).entries.index k = _
    rw [Get_state]
  | sweep =>
    show (c.reapPass t).entries.index k = _ ∨ _ ∧ (c.reapPass t).entries.index k = none
    rw [index_reapPass]
    cases hc : c.entries.index k with
    | none => left; rfl
    | some x =>
      by_cases hb : x.createdAt.Before (c.threshold t) = true
      · right; exact ⟨rfl, by simp [Option.filter, hb]⟩
      · left; simp [Option.filter, hb]

theorem interval_step (c : Cache) (e : Event) : (step c e).interval = c.interval := by
  obtain ⟨t, op⟩ := e
  cases op with
  | add key val => rfl
  | get key => show ((c.Get key).1).interval = _; rw [Get_state]
  | sweep => rfl

theorem interval_run (c : Cache) (es : List Event) : (run c es).interval = c.interval := by
  induction es generalizing c with
  | nil => rfl
  | cons e es ih =>
    show (run (step c e) es).interval = _
    rw [ih, interval_step]

theorem run_cons (c : Cache) (e : Event) (es : List Event) :
    run c (e :: es) = run (step c e) es := rfl

theorem run_append (c : Cache) (es₁ es₂ : List Event) :
    run c (es₁ ++ es₂) = run (run c es₁) es₂ := by
  simp [run, List.foldl_append]

theorem index_run_of_absent (c : Cache) (es : List Event) (k : String)
    (hc : c.entries.index k = none) (hes : ∀ e ∈ es, e.addsKey k = false) :
    (run c es).entries.index k = none := by
  induction es generalizing c with
  | nil => exact hc
  | cons e es ih =>
    rw [run_cons]
    apply ih
    · rcases index_step_of_not_adds c e k (hes e (List.mem_cons_self _ _)) with h | h
      · rw [h, hc]
      · exact h.2
    · intro e' he'
      exact hes e' (List.mem_cons_of_mem _ he')

theorem threshold_eq (c : Cache) (now : Time) :
    c.threshold now = now + c.interval.neg.val := rfl

theorem threshold_of_ne_min (c : Cache) (now : Time) (h : c.interval.val ≠ minInt64) :
    c.threshold now = now - c.interval.val := by
  rw [threshold_eq, neg_val_of_ne_min c.interval h]
  exact (Int.sub_eq_add_neg).symm

theorem threshold_run (c : Cache) (es : List Event) (now : Time) :
    (run c es).threshold now = c.threshold now := by
  unfold Cache.threshold
  rw [interval_run]

theorem index_run_same_or_absent (c : Cache) (es : List Event) (k : String)
    (hes : ∀ e ∈ es, e.addsKey k = false) :
    (run c es).entries.index k = c.entries.index k ∨ (run c es).entries.index k = none := by
  induction es generalizing c with
  | nil => left; rfl
  | cons e es ih =>
    rw [run_cons]
    have hrest : ∀ e' ∈ es, e'.addsKey k = false :=
      fun e' he' => hes e' (List.mem_cons_of_mem _ he')
    rcases index_step_of_not_adds c e k (hes e (List.mem_cons_self _ _)) with h | h
    · rw [← h]; exact ih (step c e) hrest
    · right; exact index_run_of_absent (step c e) es k h.2 hrest

theorem index_run_of_fresh (c : Cache) (es : List Event) (k : String) (x : cacheEntry)
    (hc : c.entries.index k = some x)
    (hadd : ∀ e ∈ es, e.addsKey k = false)
    (hsweep : ∀ e ∈ es, e.op = Op.sweep → c.threshold e.time ≤ x.createdAt) :
    (run c es).entries.index k = some x := by
  induction es generalizing c with
  | nil => exact hc
  | cons e es ih =>
    rw [run_cons]
    have he : e.addsKey k = false := hadd e (List.mem_cons_self _ _)
    apply ih
    · rcases index_step_of_not_adds c e k he with h | h
      · rw [h, hc]
      · exfalso
        obtain ⟨t, op⟩ := e
        have hop : op = Op.sweep := h.1
        subst hop
        have hth := hsweep ⟨t, Op.sweep⟩ (List.mem_cons_self _ _) rfl
        have hidx : (c.reapPass t).entries.index k = none := h.2
        rw [index_reapPass, hc] at hidx
        have hb : x.createdAt.Before (c.threshold t) = false := by
          simp only [Time.Before, decide_eq_false_iff_not, not_lt]
          exact hth
        simp [Option.filter, hb] at hidx
    · intro e' he'
      exact hadd e' (List.mem_cons_of_mem _ he')
    · intro e' he' hop
      have := hsweep e' (List.mem_cons_of_mem _ he') hop
      unfold Cache.threshold at this ⊢
      rw [interval_step]
      exact this

theorem index_reapPass_of_before (c : Cache) (now : Time) (k : String) (x : cacheEntry)
    (hc : c.entries.index k = some x ∨ c.entries.index k = none)
    (hb : x.createdAt < c.threshold now) :
    (c.reapPass now).entries.index k = none := by
  rw [index_reapPass]
  rcases hc with hc | hc
  · have : x.createdAt.Before (c.threshold now) = true := by
      simpa [Time.Before] using hb
    simp [hc, Option.filter, this]
  · simp [hc, Option.filter]

theorem threshold_lt_of_lt (c : Cache) (now t0 : Int) (h : now < t0 + c.interval.val) :
    c.threshold now < t0 := by
  have h1 := c.interval.property.1
  have h2 := c.interval.property.2
  unfold minInt64 at h1
  unfold maxInt64 at h2
  show now + wrapInt64 (-c.interval.val) < t0
  unfold wrapInt64
  omega

theorem threshold_le_of_le (c : Cache) (now t0 : Int) (hT : 0 < c.interval.val)
    (h : now ≤ t0 + c.interval.val) : c.threshold now ≤ t0 := by
  have h2 := c.interval.property.2
  unfold maxInt64 at h2
  show now + wrapInt64 (-c.interval.val) ≤ t0
  unfold wrapInt64
  omega

theorem lt_threshold_of_lt (c : Cache) (now t0 : Int) (hT : 0 < c.interval.val)
    (h : t0 + c.interval.val < now) : t0 < c.threshold now := by
  have h2 := c.interval.property.2
  unfold maxInt64 at h2
  show t0 < now + wrapInt64 (-c.interval.val)
  unfold wrapInt64
  omega

theorem exists_sweep_index (c0 t0 T : Int) (hT : 0 < T) (hc0 : c0 ≤ t0) :
    ∃ n : Nat, 1 ≤ n ∧ t0 + T < c0 + n * T ∧ c0 + n * T ≤ t0 + 2 * T := by
  have hq : 0 ≤ (t0 - c0) / T := Int.ediv_nonneg (by omega) (le_of_lt hT)
  have hmod := Int.emod_nonneg (t0 - c0) (ne_of_gt hT)
  have hlt := Int.emod_lt_of_pos (t0 - c0) hT
  have hdiv := Int.ediv_add_emod (t0 - c0) T
  refine ⟨((t0 - c0) / T).toNat + 2, by omega, ?_, ?_⟩
  · have hcast : ((((t0 - c0) / T).toNat + 2 : Nat) : Int) = (t0 - c0) / T + 2 := by
      rw [Nat.cast_add, Int.toNat_of_nonneg hq]; rfl
    rw [hcast]
    nlinarith
  · have hcast : ((((t0 - c0) / T).toNat + 2 : Nat) : Int) = (t0 - c0) / T + 2 := by
      rw [Nat.cast_add, Int.toNat_of_nonneg hq]; rfl
    rw [hcast]
    nlinarith

/-! ## Storage and lookup -/

/-- C1. Round trip: in every cache state, for every key `k` and every byte slice `v`
(the nil slice included), `Add(k, v)` followed immediately by `Get(k)` returns exactly
`(v, true)`: the stored slice comes back unchanged. -/
theorem Add_Get_roundtrip (c : Cache) (now : Time) (k : String) (v : Bytes) :
    ((c.Add now k v).Get k).2 = (v, true) := by
  rw [Get_result, index_Add, if_pos rfl]

/-- C2. Overwrite: after `Add(k, v1)` at `t1` and `Add(k, v2)` at `t2`, `Get(k)` returns
`(v2, true)`; the entry under `k` is exactly `{createdAt: t2, val: v2}`, the map holds one
entry for `k`, and every lookup is what it would be had the first `Add` never run. -/
theorem Add_Add_latest_wins (c : Cache) (t1 t2 : Time) (k : String) (v1 v2 : Bytes) :
    (((c.Add t1 k v1).Add t2 k v2).Get k).2 = (v2, true) ∧
    ((c.Add t1 k v1).Add t2 k v2).entries.index k = some { createdAt := t2, val := v2 } ∧
    ((c.Add t1 k v1).Add t2 k v2).entries.count k = 1 ∧
    (∀ k', ((c.Add t1 k v1).Add t2 k v2).entries.index k' =
      (c.Add t2 k v2).entries.index k') := by
  refine ⟨?_, ?_, count_assign _ k _, ?_⟩
  · rw [Get_result, index_Add, if_pos rfl]
  · rw [index_Add, if_pos rfl]
  · intro k'
    rw [index_Add, index_Add, index_Add]
    by_cases h : k' = k <;> simp [h]

/-- C3. Absence: `Get(k)` reports `found = true` exactly when the map holds an entry for
`k`; on a cache made by `NewCache` and run through any events that never add `k`, `Get(k)`
returns `(nil, false)`.  `Get` is a total function: it has no error result. -/
theorem Get_found_iff_present (c : Cache) (d : Duration) (es : List Event) (k : String)
    (hes : ∀ e ∈ es, e.addsKey k = false) :
    ((c.Get k).2.2 = true ↔ k ∈ c.entries.items.map Prod.fst) ∧
    ((run (NewCache d) es).Get k).2 = (none, false) := by
  constructor
  · rw [← isSome_index_iff, Get_result]
    cases c.entries.index k <;> simp
  · rw [Get_result, index_run_of_absent (NewCache d) es k (EntryMap.index_make k) hes]

/-- A witness for C3: a fresh cache on which `"u1"` is looked up after another key was
added and a sweep ran. -/
theorem Get_found_iff_present_witness :
    (∀ e ∈ [Event.mk 1 (Op.add "u2" (some [4])), Event.mk 2 Op.sweep,
        Event.mk 3 (Op.get "u1")], e.addsKey "u1" = false) ∧
    (((sampleCache.Get "u1").2.2 = true ↔ "u1" ∈ sampleCache.entries.items.map Prod.fst) ∧
      ((run (NewCache interval100ms) [Event.mk 1 (Op.add "u2" (some [4])), Event.mk 2 Op.sweep,
        Event.mk 3 (Op.get "u1")]).Get "u1").2 = (none, false)) :=
  ⟨by decide, Get_found_iff_present sampleCache interval100ms _ "u1" (by decide)⟩

/-- C7. `Get` is read-only: it returns the cache state it was given, so a `Get` executed
anywhere in a run leaves the final state, and with it the outcome of every later sweep,
the same as if it had not been executed. -/
theorem Get_read_only (c : Cache) (k : String) :
    (c.Get k).1 = c ∧
    (∀ now, ((c.Get k).1).reapPass now = c.reapPass now) ∧
    (∀ (t : Time) (es₁ es₂ : List Event),
      run c (es₁ ++ Event.mk t (Op.get k) :: es₂) = run c (es₁ ++ es₂)) := by
  refine ⟨Get_state c k, fun now => by rw [Get_state], ?_⟩
  intro t es₁ es₂
  rw [run_append, run_append, run_cons]
  show run ((run c es₁).Get k).1 es₂ = _
  rw [Get_state]

/-- C10. `Add` touches only its own key: for `k ≠ k'`, `Add(k, v)` leaves the entry under
`k'` and the interval as they were, so `Get(k')` returns the same pair before and after;
and any event that is not an `Add` on `k'` either leaves the entry under `k'` as it was or
is a sweep that removed it. -/
theorem Add_other_key_unchanged (c : Cache) (now : Time) (k k' : String) (v : Bytes)
    (h : k ≠ k') :
    (c.Add now k v).entries.index k' = c.entries.index k' ∧
    (c.Add now k v).interval = c.interval ∧
    ((c.Add now k v).Get k').2 = (c.Get k').2 ∧
    (∀ e : Event, e.addsKey k' = false →
      (step c e).entries.index k' = c.entries.index k' ∨
        (e.op = Op.sweep ∧ (step c e).entries.index k' = none)) := by
  have h1 : (c.Add now k v).entries.index k' = c.entries.index k' := by
    rw [index_Add, if_neg (fun hk => h hk.symm)]
  refine ⟨h1, rfl, ?_, fun e he => index_step_of_not_adds c e k' he⟩
  rw [Get_result, Get_result, h1]

/-- A witness for C10: adding `"u1"` to a cache that holds `"u2"`. -/
theorem Add_other_key_unchanged_witness :
    "u1" ≠ "u2" ∧
    ((sampleCache.Add 9 "u1" (some [1, 2, 3])).entries.index "u2" =
        sampleCache.entries.index "u2" ∧
      (sampleCache.Add 9 "u1" (some [1, 2, 3])).interval = sampleCache.interval ∧
      ((sampleCache.Add 9 "u1" (some [1, 2, 3])).Get "u2").2 = (sampleCache.Get "u2").2 ∧
      (∀ e : Event, e.addsKey "u2" = false →
        (step sampleCache e).entries.index "u2" = sampleCache.entries.index "u2" ∨
          (e.op = Op.sweep ∧ (step sampleCache e).entries.index "u2" = none))) :=
  ⟨by decide, Add_other_key_unchanged sampleCache 9 "u1" "u2" (some [1, 2, 3]) (by decide)⟩

/-! ## Eviction -/

/-- C4, as stated, fails at the least duration: with `interval = math.MinInt64`, `-interval`
wraps to `math.MinInt64`, so at `now = 1000` the threshold is `now - 2^63` and the entry
created at `0` is kept, although `0` is strictly before `now - interval = 1000 + 2^63`. -/
theorem reapPass_min_interval_keeps_old_entry :
    ((NewCache intervalMin).Add 0 "u1" (some [1, 2, 3])).entries.index "u1" =
        some { createdAt := 0, val := some [1, 2, 3] } ∧
    (0 : Int) < 1000 - ((NewCache intervalMin).Add 0 "u1" (some [1, 2, 3])).interval.val ∧
    (((NewCache intervalMin).Add 0 "u1" (some [1, 2, 3])).reapPass 1000).entries.index "u1" =
        some { createdAt := 0, val := some [1, 2, 3] } := by
  decide

/-- C4, amended. In every cache state whose interval is not the least `int64` duration, and
for every sweep time `now`, one pass of the reaper leaves under each key `k` the entry that
was there if its `createdAt >= now - interval`, and nothing otherwise: it deletes exactly
the entries created strictly before `now - interval`, a surviving entry keeps its value and
`createdAt`, no entry is added, and the interval is unchanged. -/
theorem reapPass_policy (c : Cache) (now : Time) (h : c.interval.val ≠ minInt64) :
    (∀ k, (c.reapPass now).entries.index k =
      (c.entries.index k).filter (fun e => decide (now - c.interval.val ≤ e.createdAt))) ∧
    (c.reapPass now).interval = c.interval := by
  refine ⟨fun k => ?_, rfl⟩
  rw [index_reapPass, threshold_of_ne_min c now h]
  congr 1
  funext e
  show (!decide (e.createdAt < now - c.interval.val)) =
    decide (now - c.interval.val ≤ e.createdAt)
  by_cases hle : now - c.interval.val ≤ e.createdAt
  · rw [decide_eq_true hle, decide_eq_false (not_lt.2 hle)]; rfl
  · rw [decide_eq_false hle, decide_eq_true (not_le.1 hle)]; rfl

/-- A witness for C4: a sweep at 100ms + 3ns of a cache with interval 100ms that holds one
entry created at 0 and one created at 5ns. -/
theorem reapPass_policy_witness :
    sampleCache.interval.val ≠ minInt64 ∧
    ((∀ k, (sampleCache.reapPass 100000003).entries.index k =
      (sampleCache.entries.index k).filter
        (fun e => decide (100000003 - sampleCache.interval.val ≤ e.createdAt))) ∧
    (sampleCache.reapPass 100000003).interval = sampleCache.interval) :=
  ⟨by decide, reapPass_policy sampleCache 100000003 (by decide)⟩

/-- C5. Expiry lower bound: in a cache with interval `T`, after `Add(k, v)` at `t0`, any
sequence of `Get`s, `Add`s on other keys and sweeps that all execute at times in
`[t0, t0 + T)` leaves the entry `{createdAt: t0, val: v}` in place, and `Get(k)` still
returns `(v, true)`. -/
theorem entry_live_within_interval (c : Cache) (t0 : Time) (k : String) (v : Bytes)
    (es : List Event)
    (hadd : ∀ e ∈ es, e.addsKey k = false)
    (htime : ∀ e ∈ es, t0 ≤ e.time ∧ e.time < t0 + c.interval.val) :
    (run (c.Add t0 k v) es).entries.index k = some { createdAt := t0, val := v } ∧
    ((run (c.Add t0 k v) es).Get k).2 = (v, true) := by
  have hidx : (run (c.Add t0 k v) es).entries.index k = some { createdAt := t0, val := v } := by
    apply index_run_of_fresh _ es k _ _ hadd
    · intro e he _
      exact le_of_lt (threshold_lt_of_lt (c.Add t0 k v) e.time t0 (htime e he).2)
    · rw [index_Add, if_pos rfl]
  exact ⟨hidx, by rw [Get_result, hidx]⟩

/-- A witness for C5: interval 100ms, `Add("u1", [1,2,3])` at 0, then a `Get` at 50ms, an
`Add` on another key at 60ms and a sweep at 99ms. -/
theorem entry_live_within_interval_witness :
    (∀ e ∈ [Event.mk 50000000 (Op.get "u1"), Event.mk 60000000 (Op.add "u2" (some [9])),
        Event.mk 99000000 Op.sweep], e.addsKey "u1" = false) ∧
    (∀ e ∈ [Event.mk 50000000 (Op.get "u1"), Event.mk 60000000 (Op.add "u2" (some [9])),
        Event.mk 99000000 Op.sweep],
      (0 : Time) ≤ e.time ∧ e.time < 0 + (NewCache interval100ms).interval.val) ∧
    ((run ((NewCache interval100ms).Add 0 "u1" (some [1, 2, 3]))
        [Event.mk 50000000 (Op.get "u1"), Event.mk 60000000 (Op.add "u2" (some [9])),
          Event.mk 99000000 Op.sweep]).entries.index "u1" =
        some { createdAt := 0, val := some [1, 2, 3] } ∧
      ((run ((NewCache interval100ms).Add 0 "u1" (some [1, 2, 3]))
        [Event.mk 50000000 (Op.get "u1"), Event.mk 60000000 (Op.add "u2" (some [9])),
          Event.mk 99000000 Op.sweep]).Get "u1").2 = (some [1, 2, 3], true)) :=
  ⟨by decide, by decide,
    entry_live_within_interval (NewCache interval100ms) 0 "u1" (some [1, 2, 3]) _
      (by decide) (by decide)⟩

/-- C6. Expiry upper bound: in a cache created at `c0` with positive interval `T`, for an
entry added at `t0 >= c0` whose key is not added again:
* events at times up to `t0 + T` leave it in place (it lives at least `T`);
* every sweep at a time later than `t0 + T` deletes it, and every `Get(k)` after that
  sweep returns `(nil, false)`;
* one of the sweeps scheduled at `c0 + n*T`, `n >= 1`, runs later than `t0 + T` and no
  later than `t0 + 2T`, and after it every `Get(k)` returns `(nil, false)` (the entry
  lives at most `2T`). -/
theorem entry_expires_within_two_intervals (c : Cache) (c0 t0 : Time) (k : String) (v : Bytes)
    (hT : 0 < c.interval.val) (hc0 : c0 ≤ t0) :
    (∀ es : List Event, (∀ e ∈ es, e.addsKey k = false) →
      (∀ e ∈ es, e.time ≤ t0 + c.interval.val) →
      ((run (c.Add t0 k v) es).Get k).2 = (v, true)) ∧
    (∀ (s : Time) (es₁ es₂ : List Event), t0 + c.interval.val < s →
      (∀ e ∈ es₁, e.addsKey k = false) → (∀ e ∈ es₂, e.addsKey k = false) →
      ((run (c.Add t0 k v) (es₁ ++ Event.mk s Op.sweep :: es₂)).Get k).2 = (none, false)) ∧
    (∃ n : Nat, 1 ≤ n ∧ t0 + c.interval.val < c0 + n * c.interval.val ∧
      c0 + n * c.interval.val ≤ t0 + 2 * c.interval.val ∧
      ∀ es₁ es₂ : List Event,
        (∀ e ∈ es₁, e.addsKey k = false) → (∀ e ∈ es₂, e.addsKey k = false) →
        ((run (c.Add t0 k v) (es₁ ++ Event.mk (c0 + n * c.interval.val) Op.sweep :: es₂)).Get
          k).2 = (none, false)) := by
  have hfresh : (c.Add t0 k v).entries.index k = some { createdAt := t0, val := v } := by
    rw [index_Add, if_pos rfl]
  have hlate : ∀ (s : Time) (es₁ es₂ : List Event), t0 + c.interval.val < s →
      (∀ e ∈ es₁, e.addsKey k = false) → (∀ e ∈ es₂, e.addsKey k = false) →
      ((run (c.Add t0 k v) (es₁ ++ Event.mk s Op.sweep :: es₂)).Get k).2 = (none, false) := by
    intro s es₁ es₂ hs h₁ h₂
    rw [run_append, run_cons]
    have hb : t0 < (run (c.Add t0 k v) es₁).threshold s := by
      rw [threshold_run]
      exact lt_threshold_of_lt (c.Add t0 k v) s t0 hT hs
    have hpre := index_run_same_or_absent (c.Add t0 k v) es₁ k h₁
    rw [hfresh] at hpre
    have hdel : (step (run (c.Add t0 k v) es₁) (Event.mk s Op.sweep)).entries.index k = none :=
      index_reapPass_of_before _ s k { createdAt := t0, val := v } hpre hb
    rw [Get_result, index_run_of_absent _ es₂ k hdel h₂]
  refine ⟨?_, hlate, ?_⟩
  · intro es hadd htime
    have hidx : (run (c.Add t0 k v) es).entries.index k =
        some { createdAt := t0, val := v } := by
      apply index_run_of_fresh _ es k _ hfresh hadd
      intro e he _
      exact threshold_le_of_le (c.Add t0 k v) e.time t0 hT (htime e he)
    rw [Get_result, hidx]
  · obtain ⟨n, hn, hlo, hhi⟩ := exists_sweep_index c0 t0 c.interval.val hT hc0
    exact ⟨n, hn, hlo, hhi, fun es₁ es₂ h₁ h₂ => hlate _ es₁ es₂ hlo h₁ h₂⟩

/-- A witness for C6: a cache created at 0 with interval 100ms and an entry added at 0. -/
theorem entry_expires_within_two_intervals_witness :
    0 < (NewCache interval100ms).interval.val ∧ (0 : Time) ≤ 0 ∧
    ((∀ es : List Event, (∀ e ∈ es, e.addsKey "u1" = false) →
      (∀ e ∈ es, e.time ≤ 0 + (NewCache interval100ms).interval.val) →
      ((run ((NewCache interval100ms).Add 0 "u1" (some [1, 2, 3])) es).Get "u1").2 =
        (some [1, 2, 3], true)) ∧
    (∀ (s : Time) (es₁ es₂ : List Event), 0 + (NewCache interval100ms).interval.val < s →
      (∀ e ∈ es₁, e.addsKey "u1" = false) → (∀ e ∈ es₂, e.addsKey "u1" = false) →
      ((run ((NewCache interval100ms).Add 0 "u1" (some [1, 2, 3]))
        (es₁ ++ Event.mk s Op.sweep :: es₂)).Get "u1").2 = (none, false)) ∧
    (∃ n : Nat, 1 ≤ n ∧
      0 + (NewCache interval100ms).interval.val <
        0 + n * (NewCache interval100ms).interval.val ∧
      0 + n * (NewCache interval100ms).interval.val ≤
        0 + 2 * (NewCache interval100ms).interval.val ∧
      ∀ es₁ es₂ : List Event,
        (∀ e ∈ es₁, e.addsKey "u1" = false) → (∀ e ∈ es₂, e.addsKey "u1" = false) →
        ((run ((NewCache interval100ms).Add 0 "u1" (some [1, 2, 3]))
          (es₁ ++ Event.mk (0 + n * (NewCache interval100ms).interval.val) Op.sweep ::
            es₂)).Get "u1").2 = (none, false))) :=
  ⟨by decide, by decide,
    entry_expires_within_two_intervals (NewCache interval100ms) 0 0 "u1" (some [1, 2, 3])
      (by decide) (by decide)⟩

/-- The scenario of the specification: interval 100ms, `Add("u1", [1,2,3])` at 0; `Get` at
50ms finds it; after the sweeps at 100ms and 200ms, `Get` at 250ms does not. -/
theorem scenario_100ms :
    ((run ((NewCache interval100ms).Add 0 "u1" (some [1, 2, 3]))
        [Event.mk 50000000 (Op.get "u1")]).Get "u1").2 = (some [1, 2, 3], true) ∧
    ((run ((NewCache interval100ms).Add 0 "u1" (some [1, 2, 3]))
        [Event.mk 50000000 (Op.get "u1"), Event.mk 100000000 Op.sweep]).Get "u1").2 =
      (some [1, 2, 3], true) ∧
    ((run ((NewCache interval100ms).Add 0 "u1" (some [1, 2, 3]))
        [Event.mk 50000000 (Op.get "u1"), Event.mk 100000000 Op.sweep,
          Event.mk 200000000 Op.sweep, Event.mk 250000000 (Op.get "u1")]).Get "u1").2 =
      (none, false) := by
  decide

/-! ## Construction -/

/-- C8, as stated, fails: `NewCache(0)` and `NewCache(-1ns)` return caches whose interval
is not positive, and the reaper of the first uses `now` itself as its threshold. -/
theorem NewCache_nonpositive_interval :
    ¬ (0 < (NewCache intervalZero).interval.val) ∧
    (NewCache intervalZero).threshold 5 = 5 ∧
    ¬ (0 < (NewCache ⟨-1, by decide⟩).interval.val) := by
  decide

/-- C8, amended. `NewCache` neither rejects nor clamps its argument: the cache it returns
is empty and holds the interval exactly as passed, no operation changes it afterwards, and
so the interval the reaper uses is positive exactly when the argument was. -/
theorem NewCache_keeps_interval (d : Duration) :
    (NewCache d).interval = d ∧
    (NewCache d).entries.items = [] ∧
    (∀ es, (run (NewCache d) es).interval = d) ∧
    (0 < (NewCache d).interval.val ↔ 0 < d.val) :=
  ⟨rfl, rfl, fun es => interval_run (NewCache d) es, Iff.rfl⟩

end pokecache
